import Mathlib

/-!
Verification of the PNA-Rust log-structured key-value store.

This file gives a shallow embedding of the storage engine of
`src/project-5/src/storage/kvstore.rs` (with the recovery routine
`load_from_logfile` of `src/project-4/src/storage/kv_util.rs`), of the
framed wire protocol of `src/project-3/src/protocol.rs`, and of the
shared-queue thread pool of `src/project-5/src/thread_pool/shared_queue.rs`,
and proves or refutes the specification claims about them.

Records on disk are JSON values produced by `serde_json`; the embedding
models a segment file as the list of records it holds, together with the
exact byte size `encSize` that `serde_json` produces for each record, so
byte offsets and lengths are faithful while the JSON codec itself (an
external library) is trusted as the inverse pair encode/decode.
-/

namespace KV

/-- The log record type (`Ops` in `kvstore.rs`): `Set { key, val }` or
`Rm { key }`. -/
inductive Ops where
  | Set (key val : String)
  | Rm (key : String)
deriving DecidableEq, Repr

/-- Byte size that `serde_json` emits for one character inside a JSON
string: `"` and `\` become two-byte escapes, control characters become the
two-byte short escapes or six-byte `\u00XX` escapes, everything else is
written raw in UTF-8. -/
def escSize (c : Char) : Nat :=
  if c = '"' ∨ c = '\\' then 2
  else if c.toNat < 32 then
    if c.toNat = 8 ∨ c.toNat = 9 ∨ c.toNat = 10 ∨ c.toNat = 12 ∨ c.toNat = 13 then 2
    else 6
  else c.utf8Size

/-- Byte size of a JSON string literal: two quotes plus escaped content. -/
def jsonStrSize (s : String) : Nat := 2 + (s.data.map escSize).sum

/-- Byte size of the `serde_json` encoding of a record: the externally
tagged forms have 23 bytes of fixed punctuation for `Set` and
15 bytes for `Rm` around the JSON string literals. -/
def encSize : Ops → Nat
  | .Set k v => 23 + jsonStrSize k + jsonStrSize v
  | .Rm k => 15 + jsonStrSize k

/-- A record locator (`CommandPos` in `kvstore.rs`): generation, byte
offset, byte length. -/
structure CommandPos where
  gen : Nat
  pos : Nat
  len : Nat
deriving DecidableEq, Repr

/-- The in-memory index (`BTreeMap<String, CommandPos>`), kept as an
association list sorted strictly by key, which is the `BTreeMap`
iteration order. -/
abbrev DB := List (String × CommandPos)

/-- One segment file, as the list of records appended to it. -/
abbrev Segment := List Ops

/-- The store directory: generation number to segment file, kept sorted
by generation. -/
abbrev Files := List (Nat × Segment)

/-- Model of `BTreeMap::get`: first (and under sortedness only) binding of a key. -/
def dbLookup : DB → String → Option CommandPos
  | [], _ => none
  | (k₀, cp₀) :: rest, k => if k = k₀ then some cp₀ else dbLookup rest k

/-- Model of `BTreeMap::insert`: sorted insert, returning the displaced binding. -/
def dbInsert : DB → String → CommandPos → DB × Option CommandPos
  | [], k, cp => ([(k, cp)], none)
  | (k₀, cp₀) :: rest, k, cp =>
    if k < k₀ then ((k, cp) :: (k₀, cp₀) :: rest, none)
    else if k = k₀ then ((k, cp) :: rest, some cp₀)
    else
      let r := dbInsert rest k cp
      ((k₀, cp₀) :: r.1, r.2)

/-- Model of `BTreeMap::remove`: remove the binding of a key, returning it. -/
def dbRemove : DB → String → DB × Option CommandPos
  | [], _ => ([], none)
  | (k₀, cp₀) :: rest, k =>
    if k = k₀ then (rest, some cp₀)
    else
      let r := dbRemove rest k
      ((k₀, cp₀) :: r.1, r.2)

/-- Look up a segment file by generation. -/
def filesLookup : Files → Nat → Option Segment
  | [], _ => none
  | (g₀, f₀) :: rest, g => if g = g₀ then some f₀ else filesLookup rest g

/-- Create or replace the segment file of a generation (sorted insert). -/
def setFile : Files → Nat → Segment → Files
  | [], g, f => [(g, f)]
  | (g₀, f₀) :: rest, g, f =>
    if g < g₀ then (g, f) :: (g₀, f₀) :: rest
    else if g = g₀ then (g, f) :: rest
    else (g₀, f₀) :: setFile rest g f

/-- Model of `fs::remove_file` on one generation's segment. -/
def removeFile : Files → Nat → Files
  | [], _ => []
  | (g₀, f₀) :: rest, g => if g = g₀ then rest else (g₀, f₀) :: removeFile rest g

/-- Delete a list of generations. -/
def removeGens (fs : Files) (gens : List Nat) : Files := gens.foldl removeFile fs

/-- Byte length of a segment file. -/
def byteLen (seg : Segment) : Nat := (seg.map encSize).sum

/-- Seek to byte offset `pos` in a segment and decode one JSON value from
exactly `len` bytes (`reader.seek`, `take(len)`, `serde_json::from_reader`).
The decode succeeds exactly when `pos` is a record boundary and `len` is
that record's encoded size; otherwise the bytes are a truncated or
misaligned JSON value and the decoder fails. -/
def readAt : Segment → Nat → Nat → Option Ops
  | [], _, _ => none
  | r :: rest, pos, len =>
    if pos = 0 then (if len = encSize r then some r else none)
    else if encSize r ≤ pos then readAt rest (pos - encSize r) len
    else none

/-- Resolve a locator against the directory. -/
def readDisk (fs : Files) (cp : CommandPos) : Option Ops :=
  (filesLookup fs cp.gen).bind fun seg => readAt seg cp.pos cp.len

/-- Error kinds of `error.rs` (`KVErrorKind`). -/
inductive KVErrorKind where
  | KeyNotFound
  | IoError
  | UnexpectedCommandType
  | JsonError
  | SledError
  | ThreadPanic
  | RayonError
  | TokioSyncError
  | UnknownError
deriving DecidableEq, Repr

/-- The `COMPACTION_THRESHOLD` of `kvstore.rs`: 2 MiB. -/
def COMPACTION_THRESHOLD : Nat := 2 * 1024 * 1024

/-- The state of one `KvStore`: the directory contents, the shared index,
the writer's current generation and position, the stale-generation
watermark, and the uncompacted-bytes counter. -/
structure Store where
  files : Files
  database : DB
  curGen : Nat
  writerPos : Nat
  staleGen : Nat
  uncompacted : Nat
deriving DecidableEq, Repr

/-- Length of a displaced locator, `0` when nothing was displaced. -/
def oldLenOf : Option CommandPos → Nat
  | some cp => cp.len
  | none => 0

/-- Model of `KvStoreWriteHalf::write_ops`: sample `begin = writer.pos`, serialize
the record (appending `encSize op` bytes to the current generation's
file), flush, sample `end = writer.pos`, and return the locator
`(cur_gen, begin, end - begin)`. -/
def writeOps (s : Store) (op : Ops) : Store × CommandPos :=
  let pos := s.writerPos
  let seg := (filesLookup s.files s.curGen).getD []
  let files := setFile s.files s.curGen (seg ++ [op])
  let newPos := pos + encSize op
  ({ s with files := files, writerPos := newPos }, ⟨s.curGen, pos, newPos - pos⟩)

/-- The copy loop of `KvStoreWriteHalf::compact`: iterate the index in
`BTreeMap` (key) order; for each locator copy its bytes from the source
segment to the compaction writer (`io::copy` returns the byte count
actually copied, which for a dangling locator that yields no decodable
record is modelled as `0`), and retarget the locator in place. Returns
the new index, the compaction segment, and the final writer position. -/
def compactLoop (fs : Files) (cgen : Nat) : DB → Nat → DB × Segment × Nat
  | [], pos => ([], [], pos)
  | (k, cp) :: rest, pos =>
    match readDisk fs cp with
    | some r =>
      let t := compactLoop fs cgen rest (pos + encSize r)
      ((k, ⟨cgen, pos, encSize r⟩) :: t.1, r :: t.2.1, t.2.2)
    | none =>
      let t := compactLoop fs cgen rest pos
      ((k, ⟨cgen, pos, 0⟩) :: t.1, t.2.1, t.2.2)

/-- Model of `KvStoreWriteHalf::compact`: advance to the compaction generation,
copy every live record there while retargeting its locator, publish the
stale-generation watermark as `compaction_gen - 1`, delete precisely the
generations that appeared in the copy loop's reader cache (that is, the
generations some live locator pointed at) when below the compaction
generation, install the compaction writer, and zero `uncompacted`. -/
def compact (s : Store) : Store :=
  let cgen := s.curGen + 1
  let t := compactLoop s.files cgen s.database 0
  let gensToRemove := ((s.database.map fun e => e.2.gen).dedup).filter fun g => g < cgen
  let files := removeGens (setFile s.files cgen t.2.1) gensToRemove
  { files := files
    database := t.1
    curGen := cgen
    writerPos := t.2.2
    staleGen := cgen - 1
    uncompacted := 0 }

/-- Model of `KvStoreWriteHalf::set`: append the `Set` record, insert the locator
(crediting a displaced locator's length to `uncompacted`), and compact
when over threshold. In the embedding file I/O cannot fail, so the
result is always `ok`. -/
def set (s : Store) (k v : String) : Store × Except KVErrorKind Unit :=
  let w := writeOps s (Ops.Set k v)
  let r := dbInsert w.1.database k w.2
  let unc := w.1.uncompacted + oldLenOf r.2
  let s₂ := { w.1 with database := r.1, uncompacted := unc }
  (if unc > COMPACTION_THRESHOLD then compact s₂ else s₂, Except.ok ())

/-- Model of `KvStoreWriteHalf::remove`: take the key out of the index; when it was
absent fail with `KeyNotFound`, else credit the displaced length, append
the `Rm` tombstone, and compact when over threshold. -/
def remove (s : Store) (k : String) : Store × Except KVErrorKind Unit :=
  let r := dbRemove s.database k
  match r.2 with
  | none => ({ s with database := r.1 }, Except.error KVErrorKind.KeyNotFound)
  | some old =>
    let s₁ := { s with database := r.1, uncompacted := s.uncompacted + old.len }
    let w := writeOps s₁ (Ops.Rm k)
    (if w.1.uncompacted > COMPACTION_THRESHOLD then compact w.1 else w.1, Except.ok ())

/-- Model of `KvStoreReadHalf::get`: copy the locator out of the index; absence is
`ok none`; otherwise open the segment (a missing file is an I/O error),
decode the record at the locator (a failed decode is a JSON error), and
return the `Set` value, failing with `UnexpectedCommandType` on a `Rm`. -/
def get (s : Store) (k : String) : Except KVErrorKind (Option String) :=
  match dbLookup s.database k with
  | none => Except.ok none
  | some cp =>
    match filesLookup s.files cp.gen with
    | none => Except.error KVErrorKind.IoError
    | some seg =>
      match readAt seg cp.pos cp.len with
      | some (Ops.Set _ v) => Except.ok (some v)
      | some (Ops.Rm _) => Except.error KVErrorKind.UnexpectedCommandType
      | none => Except.error KVErrorKind.JsonError

/-- Model of `load_from_logfile` of `kv_util.rs`: stream the records of one
segment in order, tracking the byte offset; a `Set` inserts the locator
`(gen, begin, end - begin)` and credits a displaced locator's length to
`uncompacted`; a `Rm` removes the binding and credits the displaced
locator's length. (The tombstone's own bytes are not credited.) -/
def loadSeg (gen : Nat) : Segment → DB × Nat → Nat → DB × Nat
  | [], acc, _ => acc
  | op :: rest, acc, pos =>
    let newPos := pos + encSize op
    match op with
    | .Set k _ =>
      let r := dbInsert acc.1 k ⟨gen, pos, newPos - pos⟩
      loadSeg gen rest (r.1, acc.2 + oldLenOf r.2) newPos
    | .Rm k =>
      let r := dbRemove acc.1 k
      loadSeg gen rest (r.1, acc.2 + oldLenOf r.2) newPos

/-- Model of `KvStore::open`: replay every segment in ascending generation order
(the directory is kept sorted by generation, matching
`sorted_gen_list`), open a fresh writable generation one above the
maximum existing one, and reset the stale-generation watermark to 0. -/
def openStore (fs : Files) : Store :=
  let acc := fs.foldl (fun acc e => loadSeg e.1 e.2 acc 0) ([], 0)
  let curGen := ((fs.map fun e => e.1).getLast?.getD 0) + 1
  { files := setFile fs curGen ((filesLookup fs curGen).getD [])
    database := acc.1
    curGen := curGen
    writerPos := 0
    staleGen := 0
    uncompacted := acc.2 }

/-- The check `locOkB s.files e`: the index entry `e` resolves on disk to a `Set`
record for exactly its own key. -/
def locOkB (fs : Files) (e : String × CommandPos) : Bool :=
  match readDisk fs e.2 with
  | some (Ops.Set k _) => k == e.1
  | _ => false

/-- The writer invariant: the current generation's segment exists and the
writer position is its byte length. -/
def writerOkB (s : Store) : Bool :=
  match filesLookup s.files s.curGen with
  | some seg => s.writerPos == byteLen seg
  | none => false

/-- The index is strictly sorted by key (`BTreeMap` shape). -/
def SortedKeys (db : DB) : Prop := db.Pairwise fun a b => a.1 < b.1

/-- The directory is strictly sorted by generation. -/
def SortedGens (fs : Files) : Prop := fs.Pairwise fun a b => a.1 < b.1

/-- State invariant of a live `KvStore`: sorted index and directory, every
index locator resolving to a `Set` record of its own key, the writer
positioned at the end of the current generation's segment, and no segment
beyond the current generation. -/
def Inv (s : Store) : Prop :=
  SortedKeys s.database ∧ SortedGens s.files ∧
    (∀ e ∈ s.database, locOkB s.files e = true) ∧
    writerOkB s = true ∧
    ∀ e ∈ s.files, e.1 ≤ s.curGen

instance (db : DB) : Decidable (SortedKeys db) :=
  inferInstanceAs (Decidable (List.Pairwise _ db))

instance (fs : Files) : Decidable (SortedGens fs) :=
  inferInstanceAs (Decidable (List.Pairwise _ fs))

instance (s : Store) : Decidable (Inv s) :=
  inferInstanceAs (Decidable (_ ∧ _ ∧ _ ∧ _ ∧ _))

end KV

namespace Protocol

/-- The wire `Command` of `network/common.rs`. -/
inductive Command where
  | Get (key : String)
  | Set (key val : String)
  | Remove (key : String)
deriving DecidableEq, Repr

/-- The wire `Response` of `network/common.rs`. -/
structure Response where
  success : Bool
  message : String
deriving DecidableEq, Repr

/-- Big-endian 8-byte encoding of a `u64` (`WriteBytesExt::write_u64::<NetworkEndian>`). -/
def u64be (n : Nat) : List Nat :=
  [n / 2 ^ 56 % 256, n / 2 ^ 48 % 256, n / 2 ^ 40 % 256, n / 2 ^ 32 % 256,
   n / 2 ^ 24 % 256, n / 2 ^ 16 % 256, n / 2 ^ 8 % 256, n % 256]

/-- Big-endian decoding of a byte buffer
(`ReadBytesExt::read_u64::<NetworkEndian>`). -/
def beDecode (bs : List Nat) : Nat := bs.foldl (fun acc b => acc * 256 + b) 0

/-- Model of `protocol.rs::write`: serialize the message (`enc` standing for
`serde_json::to_vec`), send its byte length as a fixed 8-byte big-endian
prefix, then send the bytes, then flush. -/
def writeFrame (enc : α → List Nat) (x : α) : List Nat :=
  u64be (enc x).length ++ enc x

/-- Model of `protocol.rs::read`: fill an 8-byte zeroed buffer from the stream,
parse it big-endian as the length, then decode one message (`dec`
standing for `serde_json::from_reader`) from a reader taking exactly that
many following bytes. -/
def readFrame (dec : List Nat → Option α) (stream : List Nat) : Option α :=
  let lenBuffer := stream.take 8 ++ List.replicate (8 - stream.length) 0
  let length := beDecode lenBuffer
  let body := (stream.drop 8).take length
  dec body

/-- Big-endian 4-byte encoding of a `u32` length field. -/
def u32be (n : Nat) : List Nat :=
  [n / 2 ^ 24 % 256, n / 2 ^ 16 % 256, n / 2 ^ 8 % 256, n % 256]

/-- Model of the framing used by the project-5 wire path (`KvClient::send`
in `network/client.rs` and the matching server side): it delegates to the
external `tokio-util` crate's `LengthDelimitedCodec::new()`, whose default
configuration emits a fixed 4-byte big-endian unsigned length field
followed by exactly that many payload bytes (`enc` standing for the
`tokio-serde` JSON serializer). -/
def lengthDelimitedWrite (enc : α → List Nat) (x : α) : List Nat :=
  u32be (enc x).length ++ enc x

/-- Decoding side of the `tokio-util` `LengthDelimitedCodec` default
configuration used by the project-5 wire path: parse the 4-byte big-endian
length field, then decode one message from exactly that many following
bytes. -/
def lengthDelimitedRead (dec : List Nat → Option α) (stream : List Nat) :
    Option α :=
  let length := beDecode (stream.take 4)
  dec ((stream.drop 4).take length)

end Protocol

namespace Pool

/-- The observable outcome of invoking a submitted `FnOnce()` closure:
either it returns, or it panics (the `Unit` standing for the panic
payload that `catch_unwind` captures). -/
abbrev Task := Except Unit Unit

/-- Model of `FnBox::call_from_box` of `shared_queue.rs`: run the closure under
`catch_unwind`; a caught panic becomes the `ThreadPanic` error. -/
def callFromBox (t : Task) : Except KV.KVErrorKind Unit :=
  match t with
  | .ok _ => .ok ()
  | .error _ => .error KV.KVErrorKind.ThreadPanic

/-- A message on the shared queue (`Message` of `shared_queue.rs`). -/
inductive Message where
  | NewTask (t : Task)
  | Terminate

/-- The receive loop of `Worker::new`: execute each received task via
`call_from_box` (logging, but swallowing, a `ThreadPanic` error) and keep
looping; only a `Terminate` sentinel breaks the loop. Returns the
sequence of task results the worker produced. -/
def workerRun : List Message → List (Except KV.KVErrorKind Unit)
  | [] => []
  | .NewTask t :: rest => callFromBox t :: workerRun rest
  | .Terminate :: _ => []

end Pool

namespace KV

/-- A 2 097 100-character value, long enough that displacing one `Set`
record holding it pushes `uncompacted` over `COMPACTION_THRESHOLD`. -/
def bigVal : String := String.mk (List.replicate 2097100 'a')

/-- Resurrection scenario, step 0: open a store on an empty directory. -/
def rs0 : Store := openStore []

/-- Step 1: `set "a" "1"` (lands in generation 1). -/
def rs1 : Store := (set rs0 "a" "1").1

/-- Step 2: drop the store and reopen the directory (writer moves to
generation 2). -/
def rs2 : Store := openStore rs1.files

/-- Step 3: `remove "a"` (tombstone lands in generation 2). -/
def rs3 : Store := (remove rs2 "a").1

/-- Step 4: `set "b" bigVal`. -/
def rs4 : Store := (set rs3 "b" bigVal).1

/-- Step 5: `set "b" bigVal` again; the displaced big record pushes
`uncompacted` over the threshold, so this `set` compacts. -/
def rs5 : Store := (set rs4 "b" bigVal).1

/-- The pre-compaction store used to exhibit the deletion shortfall of
`compact`: generation 1 holds a stale `Set "a" "1"`, generation 2 holds
the live data (`Rm "a"` then two `Set "b"` records) and is the current
writer generation. -/
def preCompactState : Store :=
  { files := [(1, [Ops.Set "a" "1"]),
              (2, [Ops.Rm "a", Ops.Set "b" "x", Ops.Set "b" "y"])]
    database := [("b", ⟨2, 18 + encSize (Ops.Set "b" "x"), encSize (Ops.Set "b" "y")⟩)]
    curGen := 2
    writerPos := 18 + encSize (Ops.Set "b" "x") + encSize (Ops.Set "b" "y")
    staleGen := 0
    uncompacted := 29 + encSize (Ops.Set "b" "x") }

end KV

namespace KV

/-! ### Index association-list lemmas -/

theorem dbLookup_eq_none_iff {db : DB} {k : String} :
    dbLookup db k = none ↔ ∀ e ∈ db, k ≠ e.1 := by
  induction db with
  | nil => simp [dbLookup]
  | cons e rest ih =>
    obtain ⟨k₀, cp₀⟩ := e
    by_cases h : k = k₀ <;> simp [dbLookup, h, ih]

theorem dbLookup_some_mem {db : DB} {k : String} {cp : CommandPos}
    (h : dbLookup db k = some cp) : (k, cp) ∈ db := by
  induction db with
  | nil => simp [dbLookup] at h
  | cons e rest ih =>
    obtain ⟨k₀, cp₀⟩ := e
    by_cases hk : k = k₀
    · simp [dbLookup, hk] at h
      simp [hk, h]
    · simp [dbLookup, hk] at h
      exact List.mem_cons_of_mem _ (ih h)

theorem dbLookup_of_mem {db : DB} {e : String × CommandPos}
    (hs : SortedKeys db) (he : e ∈ db) : dbLookup db e.1 = some e.2 := by
  induction db with
  | nil => simp at he
  | cons e₀ rest ih =>
    obtain ⟨k₀, cp₀⟩ := e₀
    rw [SortedKeys, List.pairwise_cons] at hs
    rcases List.mem_cons.mp he with h | h
    · subst h; simp [dbLookup]
    · have hne : e.1 ≠ k₀ := ne_of_gt (hs.1 e h)
      simp only [dbLookup, if_neg hne]
      exact ih hs.2 h

theorem dbInsert_lookup_self {db : DB} {k : String} {cp : CommandPos} :
    dbLookup (dbInsert db k cp).1 k = some cp := by
  induction db with
  | nil => simp [dbInsert, dbLookup]
  | cons e rest ih =>
    obtain ⟨k₀, cp₀⟩ := e
    by_cases h₁ : k < k₀
    · simp [dbInsert, h₁, dbLookup]
    · by_cases h₂ : k = k₀ <;> simp [dbInsert, h₁, h₂, dbLookup, ih]

theorem dbInsert_lookup_ne {db : DB} {k k' : String} {cp : CommandPos}
    (h : k' ≠ k) : dbLookup (dbInsert db k cp).1 k' = dbLookup db k' := by
  induction db with
  | nil => simp [dbInsert, dbLookup, h]
  | cons e rest ih =>
    obtain ⟨k₀, cp₀⟩ := e
    by_cases h₁ : k < k₀
    · simp [dbInsert, h₁, dbLookup, h]
    · by_cases h₂ : k = k₀
      · subst h₂
        simp [dbInsert, h₁, dbLookup, h]
      · by_cases h₃ : k' = k₀ <;> simp [dbInsert, h₁, h₂, dbLookup, h₃, ih]

theorem dbInsert_snd {db : DB} {k : String} {cp : CommandPos}
    (hs : SortedKeys db) : (dbInsert db k cp).2 = dbLookup db k := by
  induction db with
  | nil => simp [dbInsert, dbLookup]
  | cons e rest ih =>
    obtain ⟨k₀, cp₀⟩ := e
    rw [SortedKeys, List.pairwise_cons] at hs
    by_cases h₁ : k < k₀
    · have : dbLookup ((k₀, cp₀) :: rest) k = none := by
        rw [dbLookup_eq_none_iff]
        intro e he
        rcases List.mem_cons.mp he with h | h
        · subst h; exact ne_of_lt h₁
        · exact ne_of_lt (lt_trans h₁ (hs.1 e h))
      simp [dbInsert, h₁, this]
    · by_cases h₂ : k = k₀
      · subst h₂; simp [dbInsert, h₁, dbLookup]
      · simp [dbInsert, h₁, h₂, dbLookup, ih hs.2]

theorem mem_dbInsert {db : DB} {k : String} {cp : CommandPos}
    {e : String × CommandPos} (h : e ∈ (dbInsert db k cp).1) :
    e = (k, cp) ∨ e ∈ db := by
  induction db with
  | nil => simpa [dbInsert] using h
  | cons e₀ rest ih =>
    obtain ⟨k₀, cp₀⟩ := e₀
    by_cases h₁ : k < k₀
    · simp only [dbInsert, if_pos h₁] at h
      rcases List.mem_cons.mp h with h | h
      · exact Or.inl h
      · exact Or.inr h
    · by_cases h₂ : k = k₀
      · subst h₂
        simp [dbInsert, h₁] at h
        rcases h with h | h
        · exact Or.inl (by simp [h])
        · exact Or.inr (List.mem_cons_of_mem _ h)
      · simp only [dbInsert, if_neg h₁, if_neg h₂] at h
        rcases List.mem_cons.mp h with h | h
        · exact Or.inr (by simp [h])
        · rcases ih h with h | h
          · exact Or.inl h
          · exact Or.inr (List.mem_cons_of_mem _ h)

theorem SortedKeys.dbInsert {db : DB} (hs : SortedKeys db)
    (k : String) (cp : CommandPos) : SortedKeys (KV.dbInsert db k cp).1 := by
  induction db with
  | nil => simp [KV.dbInsert, SortedKeys]
  | cons e₀ rest ih =>
    obtain ⟨k₀, cp₀⟩ := e₀
    rw [SortedKeys, List.pairwise_cons] at hs
    by_cases h₁ : k < k₀
    · rw [SortedKeys]
      simp only [KV.dbInsert, if_pos h₁]
      rw [List.pairwise_cons]
      constructor
      · intro e he
        rcases List.mem_cons.mp he with h | h
        · subst h; exact h₁
        · exact lt_trans h₁ (hs.1 e h)
      · rw [List.pairwise_cons]; exact hs
    · by_cases h₂ : k = k₀
      · subst h₂
        rw [SortedKeys]
        have : KV.dbInsert ((k, cp₀) :: rest) k cp = ((k, cp) :: rest, some cp₀) := by
          simp [KV.dbInsert, h₁]
        rw [this]
        rw [List.pairwise_cons]
        exact hs
      · have hgt : k₀ < k := by
          rcases lt_trichotomy k k₀ with h | h | h
          · exact absurd h h₁
          · exact absurd h h₂
          · exact h
        rw [SortedKeys]
        have : KV.dbInsert ((k₀, cp₀) :: rest) k cp =
            ((k₀, cp₀) :: (KV.dbInsert rest k cp).1, (KV.dbInsert rest k cp).2) := by
          simp [KV.dbInsert, h₁, h₂]
        rw [this]
        rw [List.pairwise_cons]
        constructor
        · intro e he
          rcases mem_dbInsert he with h | h
          · subst h; exact hgt
          · exact hs.1 e h
        · exact ih hs.2

theorem dbRemove_snd {db : DB} {k : String} :
    (dbRemove db k).2 = dbLookup db k := by
  induction db with
  | nil => simp [dbRemove, dbLookup]
  | cons e rest ih =>
    obtain ⟨k₀, cp₀⟩ := e
    by_cases h : k = k₀ <;> simp [dbRemove, dbLookup, h, ih]

theorem dbRemove_sublist (db : DB) (k : String) :
    List.Sublist (dbRemove db k).1 db := by
  induction db with
  | nil => simp [dbRemove]
  | cons e rest ih =>
    obtain ⟨k₀, cp₀⟩ := e
    by_cases h : k = k₀
    · simp only [dbRemove, if_pos h]
      exact List.sublist_cons_self _ _
    · simp only [dbRemove, if_neg h]
      exact List.Sublist.cons₂ _ ih

theorem SortedKeys.dbRemove {db : DB} (hs : SortedKeys db) (k : String) :
    SortedKeys (KV.dbRemove db k).1 :=
  List.Pairwise.sublist (dbRemove_sublist db k) hs

theorem dbRemove_lookup_self {db : DB} (hs : SortedKeys db) (k : String) :
    dbLookup (dbRemove db k).1 k = none := by
  induction db with
  | nil => simp [dbRemove, dbLookup]
  | cons e rest ih =>
    obtain ⟨k₀, cp₀⟩ := e
    rw [SortedKeys, List.pairwise_cons] at hs
    by_cases h : k = k₀
    · subst h
      simp only [dbRemove, if_pos rfl]
      rw [dbLookup_eq_none_iff]
      intro e he
      exact ne_of_lt (hs.1 e he)
    · simp [dbRemove, h, dbLookup, ih hs.2]

theorem dbRemove_lookup_ne {db : DB} {k k' : String} (h : k' ≠ k) :
    dbLookup (dbRemove db k).1 k' = dbLookup db k' := by
  induction db with
  | nil => simp [dbRemove]
  | cons e rest ih =>
    obtain ⟨k₀, cp₀⟩ := e
    by_cases h₁ : k = k₀
    · subst h₁
      simp [dbRemove, dbLookup, h]
    · by_cases h₂ : k' = k₀ <;> simp [dbRemove, h₁, dbLookup, h₂, ih]

theorem dbRemove_of_none {db : DB} {k : String}
    (h : dbLookup db k = none) : (dbRemove db k).1 = db := by
  induction db with
  | nil => simp [dbRemove]
  | cons e rest ih =>
    obtain ⟨k₀, cp₀⟩ := e
    by_cases h₁ : k = k₀
    · simp [dbLookup, h₁] at h
    · simp [dbLookup, h₁] at h
      simp [dbRemove, h₁, ih h]

theorem mem_dbRemove {db : DB} {k : String} {e : String × CommandPos}
    (h : e ∈ (dbRemove db k).1) : e ∈ db :=
  (dbRemove_sublist db k).mem h

/-! ### Directory lemmas -/

theorem filesLookup_setFile_self {fs : Files} {g : Nat} {f : Segment} :
    filesLookup (setFile fs g f) g = some f := by
  induction fs with
  | nil => simp [setFile, filesLookup]
  | cons e rest ih =>
    obtain ⟨g₀, f₀⟩ := e
    by_cases h₁ : g < g₀
    · simp [setFile, h₁, filesLookup]
    · by_cases h₂ : g = g₀ <;> simp [setFile, h₁, h₂, filesLookup, ih]

theorem filesLookup_setFile_ne {fs : Files} {g g' : Nat} {f : Segment}
    (h : g' ≠ g) : filesLookup (setFile fs g f) g' = filesLookup fs g' := by
  induction fs with
  | nil => simp [setFile, filesLookup, h]
  | cons e rest ih =>
    obtain ⟨g₀, f₀⟩ := e
    by_cases h₁ : g < g₀
    · simp [setFile, h₁, filesLookup, h]
    · by_cases h₂ : g = g₀
      · subst h₂
        simp [setFile, h₁, filesLookup, h]
      · by_cases h₃ : g' = g₀ <;> simp [setFile, h₁, h₂, filesLookup, h₃, ih]

theorem mem_setFile {fs : Files} {g : Nat} {f : Segment} {e : Nat × Segment}
    (h : e ∈ setFile fs g f) : e = (g, f) ∨ e ∈ fs := by
  induction fs with
  | nil => simpa [setFile] using h
  | cons e₀ rest ih =>
    obtain ⟨g₀, f₀⟩ := e₀
    by_cases h₁ : g < g₀
    · simp only [setFile, if_pos h₁] at h
      rcases List.mem_cons.mp h with h | h
      · exact Or.inl h
      · exact Or.inr h
    · by_cases h₂ : g = g₀
      · subst h₂
        simp [setFile, h₁] at h
        rcases h with h | h
        · exact Or.inl (by simp [h])
        · exact Or.inr (List.mem_cons_of_mem _ h)
      · simp only [setFile, if_neg h₁, if_neg h₂] at h
        rcases List.mem_cons.mp h with h | h
        · exact Or.inr (by simp [h])
        · rcases ih h with h | h
          · exact Or.inl h
          · exact Or.inr (List.mem_cons_of_mem _ h)

theorem SortedGens.setFile {fs : Files} (hs : SortedGens fs)
    (g : Nat) (f : Segment) : SortedGens (KV.setFile fs g f) := by
  induction fs with
  | nil => simp [KV.setFile, SortedGens]
  | cons e₀ rest ih =>
    obtain ⟨g₀, f₀⟩ := e₀
    rw [SortedGens, List.pairwise_cons] at hs
    by_cases h₁ : g < g₀
    · rw [SortedGens]
      simp only [KV.setFile, if_pos h₁]
      rw [List.pairwise_cons]
      constructor
      · intro e he
        rcases List.mem_cons.mp he with h | h
        · subst h; exact h₁
        · exact lt_trans h₁ (hs.1 e h)
      · rw [List.pairwise_cons]; exact hs
    · by_cases h₂ : g = g₀
      · subst h₂
        rw [SortedGens]
        have : KV.setFile ((g, f₀) :: rest) g f = (g, f) :: rest := by
          simp [KV.setFile, h₁]
        rw [this, List.pairwise_cons]
        exact hs
      · have hgt : g₀ < g := by omega
        rw [SortedGens]
        have : KV.setFile ((g₀, f₀) :: rest) g f = (g₀, f₀) :: KV.setFile rest g f := by
          simp [KV.setFile, h₁, h₂]
        rw [this, List.pairwise_cons]
        constructor
        · intro e he
          rcases mem_setFile he with h | h
          · subst h; exact hgt
          · exact hs.1 e h
        · exact ih hs.2

theorem removeFile_sublist (fs : Files) (g : Nat) :
    List.Sublist (removeFile fs g) fs := by
  induction fs with
  | nil => simp [removeFile]
  | cons e rest ih =>
    obtain ⟨g₀, f₀⟩ := e
    by_cases h : g = g₀
    · simp only [removeFile, if_pos h]
      exact List.sublist_cons_self _ _
    · simp only [removeFile, if_neg h]
      exact List.Sublist.cons₂ _ ih

theorem filesLookup_removeFile_ne {fs : Files} {g g' : Nat} (h : g' ≠ g) :
    filesLookup (removeFile fs g) g' = filesLookup fs g' := by
  induction fs with
  | nil => simp [removeFile]
  | cons e rest ih =>
    obtain ⟨g₀, f₀⟩ := e
    by_cases h₁ : g = g₀
    · subst h₁
      simp [removeFile, filesLookup, h]
    · by_cases h₂ : g' = g₀ <;> simp [removeFile, h₁, filesLookup, h₂, ih]

theorem removeGens_sublist (fs : Files) (gens : List Nat) :
    List.Sublist (removeGens fs gens) fs := by
  induction gens generalizing fs with
  | nil => simp [removeGens]
  | cons g rest ih =>
    have h₁ : List.Sublist (removeGens (removeFile fs g) rest) (removeFile fs g) := ih _
    exact List.Sublist.trans h₁ (removeFile_sublist fs g)

theorem filesLookup_removeGens_ne {fs : Files} {gens : List Nat} {g : Nat}
    (h : g ∉ gens) : filesLookup (removeGens fs gens) g = filesLookup fs g := by
  induction gens generalizing fs with
  | nil => simp [removeGens]
  | cons g₀ rest ih =>
    simp only [List.mem_cons, not_or] at h
    have : removeGens fs (g₀ :: rest) = removeGens (removeFile fs g₀) rest := rfl
    rw [this, ih h.2, filesLookup_removeFile_ne h.1]

/-! ### Record-size and segment-read lemmas -/

theorem encSize_pos (op : Ops) : 0 < encSize op := by
  cases op <;> simp [encSize]

theorem byteLen_nil : byteLen [] = 0 := rfl

theorem byteLen_cons (r : Ops) (seg : Segment) :
    byteLen (r :: seg) = encSize r + byteLen seg := by
  simp [byteLen]

theorem byteLen_append (s₁ s₂ : Segment) :
    byteLen (s₁ ++ s₂) = byteLen s₁ + byteLen s₂ := by
  simp [byteLen]

theorem readAt_append_of_some {seg : Segment} {pos len : Nat} {r : Ops}
    (h : readAt seg pos len = some r) (tail : Segment) :
    readAt (seg ++ tail) pos len = some r := by
  induction seg generalizing pos with
  | nil => simp [readAt] at h
  | cons r₀ rest ih =>
    by_cases h₁ : pos = 0
    · subst h₁
      by_cases h₂ : len = encSize r₀ <;> simp [readAt, h₂] at h ⊢
      exact h
    · by_cases h₂ : encSize r₀ ≤ pos
      · simp only [readAt, if_neg h₁, if_pos h₂] at h ⊢
        exact ih h
      · simp [readAt, h₁, h₂] at h

theorem readAt_at_byteLen {seg : Segment} (r : Ops) (tail : Segment) :
    readAt (seg ++ r :: tail) (byteLen seg) (encSize r) = some r := by
  induction seg with
  | nil => simp [readAt, byteLen]
  | cons r₀ rest ih =>
    have hpos : byteLen (r₀ :: rest) = encSize r₀ + byteLen rest := byteLen_cons _ _
    have hne : byteLen (r₀ :: rest) ≠ 0 := by
      have := encSize_pos r₀; omega
    have hle : encSize r₀ ≤ byteLen (r₀ :: rest) := by omega
    rw [List.cons_append]
    rw [readAt]
    rw [if_neg hne, if_pos hle]
    have : byteLen (r₀ :: rest) - encSize r₀ = byteLen rest := by omega
    rw [this]
    exact ih

/-! ### Invariant bridges -/

theorem locOkB_iff {fs : Files} {e : String × CommandPos} :
    locOkB fs e = true ↔ ∃ v, readDisk fs e.2 = some (Ops.Set e.1 v) := by
  unfold locOkB
  cases h : readDisk fs e.2 with
  | none => simp
  | some r =>
    cases r with
    | Set k v =>
      simp only [beq_iff_eq]
      constructor
      · intro hk; exact ⟨v, by rw [hk]⟩
      · rintro ⟨v', hv⟩
        injection hv with hv
        injection hv
    | Rm k => simp

theorem writerOkB_iff {s : Store} :
    writerOkB s = true ↔
      ∃ seg, filesLookup s.files s.curGen = some seg ∧ s.writerPos = byteLen seg := by
  unfold writerOkB
  cases h : filesLookup s.files s.curGen with
  | none => simp
  | some seg => simp [Nat.beq_eq_true_eq]

/-! ### Characterizations of `get` -/

theorem get_of_lookup_none {s : Store} {k : String}
    (h : dbLookup s.database k = none) : get s k = Except.ok none := by
  simp [get, h]

theorem get_of_set_record {s : Store} {k v : String} {cp : CommandPos}
    (h₁ : dbLookup s.database k = some cp)
    (h₂ : readDisk s.files cp = some (Ops.Set k v)) :
    get s k = Except.ok (some v) := by
  unfold readDisk at h₂
  cases hf : filesLookup s.files cp.gen with
  | none => rw [hf] at h₂; simp at h₂
  | some seg =>
    rw [hf] at h₂
    simp only [Option.some_bind] at h₂
    simp [get, h₁, hf, h₂]

theorem dbLookup_eq_none_iff_map {db : DB} {k : String} :
    dbLookup db k = none ↔ k ∉ db.map fun e => e.1 := by
  rw [dbLookup_eq_none_iff]
  constructor
  · intro h hk
    obtain ⟨e, he, hx⟩ := List.mem_map.mp hk
    exact h e he hx.symm
  · intro h e he hx
    exact h (List.mem_map.mpr ⟨e, he, hx.symm⟩)

theorem readAt_cons_shift {seg : Segment} {d len : Nat} {r r₁ : Ops}
    (h : readAt seg d len = some r) :
    readAt (r₁ :: seg) (encSize r₁ + d) len = some r := by
  have h₀ : encSize r₁ + d ≠ 0 := by
    have := encSize_pos r₁; omega
  have h₁ : encSize r₁ ≤ encSize r₁ + d := by omega
  rw [readAt, if_neg h₀, if_pos h₁]
  have : encSize r₁ + d - encSize r₁ = d := by omega
  rw [this]
  exact h

/-! ### Compaction-loop lemmas -/

theorem compactLoop_keys (fs : Files) (cgen : Nat) (db : DB) (pos : Nat) :
    ((compactLoop fs cgen db pos).1.map fun e => e.1) = db.map fun e => e.1 := by
  induction db generalizing pos with
  | nil => simp [compactLoop]
  | cons e rest ih =>
    obtain ⟨k, cp⟩ := e
    cases hr : readDisk fs cp <;> simp [compactLoop, hr, ih]

theorem compactLoop_finalPos (fs : Files) (cgen : Nat) (db : DB) (pos : Nat) :
    (compactLoop fs cgen db pos).2.2 = pos + byteLen (compactLoop fs cgen db pos).2.1 := by
  induction db generalizing pos with
  | nil => simp [compactLoop, byteLen]
  | cons e rest ih =>
    obtain ⟨k, cp⟩ := e
    cases hr : readDisk fs cp with
    | some r =>
      simp only [compactLoop, hr]
      rw [ih, byteLen_cons]
      omega
    | none =>
      simp only [compactLoop, hr]
      exact ih pos

theorem compactLoop_lookup_none {fs : Files} {cgen : Nat} {db : DB} {pos : Nat}
    {k : String} (h : dbLookup db k = none) :
    dbLookup (compactLoop fs cgen db pos).1 k = none := by
  rw [dbLookup_eq_none_iff_map] at h ⊢
  rw [compactLoop_keys]
  exact h

theorem compactLoop_get {fs : Files} {cgen : Nat} {db : DB} {pos : Nat}
    {k : String} {cp : CommandPos} {r : Ops}
    (hl : dbLookup db k = some cp) (hr : readDisk fs cp = some r) :
    ∃ cp', dbLookup (compactLoop fs cgen db pos).1 k = some cp' ∧
      cp'.gen = cgen ∧ cp'.len = encSize r ∧
      ∃ d, cp'.pos = pos + d ∧
        readAt (compactLoop fs cgen db pos).2.1 d cp'.len = some r := by
  induction db generalizing pos with
  | nil => simp [dbLookup] at hl
  | cons e rest ih =>
    obtain ⟨k₁, cp₁⟩ := e
    by_cases hk : k = k₁
    · subst hk
      simp only [dbLookup, if_pos rfl] at hl
      injection hl with hl
      subst hl
      refine ⟨⟨cgen, pos, encSize r⟩, ?_, rfl, rfl, 0, by simp, ?_⟩
      · simp [compactLoop, hr, dbLookup]
      · simp [compactLoop, hr, readAt]
    · simp only [dbLookup, if_neg hk] at hl
      cases hr₁ : readDisk fs cp₁ with
      | some r₁ =>
        obtain ⟨cp', h₁, h₂, h₃, d, h₄, h₅⟩ := @ih (pos + encSize r₁) hl
        refine ⟨cp', ?_, h₂, h₃, encSize r₁ + d, by omega, ?_⟩
        · simp [compactLoop, hr₁, dbLookup, hk, h₁]
        · simp only [compactLoop, hr₁]
          exact readAt_cons_shift h₅
      | none =>
        obtain ⟨cp', h₁, h₂, h₃, d, h₄, h₅⟩ := @ih pos hl
        refine ⟨cp', ?_, h₂, h₃, d, h₄, ?_⟩
        · simp [compactLoop, hr₁, dbLookup, hk, h₁]
        · simp only [compactLoop, hr₁]
          exact h₅

theorem dbLookup_isSome_of_mem_map {db : DB} {k : String}
    (h : k ∈ db.map fun e => e.1) : ∃ cp, dbLookup db k = some cp := by
  induction db with
  | nil => simp at h
  | cons e rest ih =>
    obtain ⟨k₀, cp₀⟩ := e
    by_cases hk : k = k₀
    · exact ⟨cp₀, by simp [dbLookup, hk]⟩
    · simp only [List.map_cons, List.mem_cons] at h
      rcases h with h | h
      · exact absurd h hk
      · obtain ⟨cp, hcp⟩ := ih h
        exact ⟨cp, by simp [dbLookup, hk, hcp]⟩

/-! ### Compaction lemmas -/

theorem compact_database (s : Store) :
    (compact s).database = (compactLoop s.files (s.curGen + 1) s.database 0).1 := rfl

theorem compact_curGen (s : Store) : (compact s).curGen = s.curGen + 1 := rfl

theorem compact_staleGen (s : Store) : (compact s).staleGen = s.curGen := rfl

theorem compact_uncompacted (s : Store) : (compact s).uncompacted = 0 := rfl

theorem compact_filesLookup_cgen (s : Store) :
    filesLookup (compact s).files (s.curGen + 1) =
      some (compactLoop s.files (s.curGen + 1) s.database 0).2.1 := by
  have hnotin : (s.curGen + 1) ∉
      ((s.database.map fun e => e.2.gen).dedup).filter fun g => g < s.curGen + 1 := by
    intro hmem
    have := List.of_mem_filter hmem
    simp at this
  show filesLookup
      (removeGens (setFile s.files (s.curGen + 1)
        (compactLoop s.files (s.curGen + 1) s.database 0).2.1) _) _ = _
  rw [filesLookup_removeGens_ne hnotin, filesLookup_setFile_self]

theorem compact_resolves {s : Store} {k v : String} {cp : CommandPos}
    (hl : dbLookup s.database k = some cp)
    (hv : readDisk s.files cp = some (Ops.Set k v)) :
    ∃ cp', dbLookup (compact s).database k = some cp' ∧
      cp'.gen = s.curGen + 1 ∧ cp'.len = encSize (Ops.Set k v) ∧
      readDisk (compact s).files cp' = some (Ops.Set k v) := by
  obtain ⟨cp', h₁, h₂, h₃, d, h₄, h₅⟩ :=
    @compactLoop_get s.files (s.curGen + 1) s.database 0 k cp _ hl hv
  refine ⟨cp', by rw [compact_database]; exact h₁, h₂, h₃, ?_⟩
  unfold readDisk
  rw [h₂, compact_filesLookup_cgen]
  simp only [Option.some_bind]
  have : cp'.pos = d := by omega
  rw [this]
  exact h₅

theorem compact_get {s : Store} (hInv : Inv s) (k : String) :
    get (compact s) k = get s k := by
  obtain ⟨hdb, hfs, hlocs, hw, hbound⟩ := hInv
  cases hl : dbLookup s.database k with
  | none =>
    have h₁ : dbLookup (compact s).database k = none := by
      rw [compact_database]
      exact compactLoop_lookup_none hl
    rw [get_of_lookup_none h₁, get_of_lookup_none hl]
  | some cp =>
    have hmem := dbLookup_some_mem hl
    obtain ⟨v, hv⟩ := locOkB_iff.mp (hlocs _ hmem)
    obtain ⟨cp', h₁, _, _, h₅⟩ := compact_resolves hl hv
    rw [get_of_set_record hl hv, get_of_set_record h₁ h₅]

theorem SortedKeys.compactLoop {fs : Files} {cgen : Nat} {db : DB} {pos : Nat}
    (hs : SortedKeys db) : SortedKeys (KV.compactLoop fs cgen db pos).1 := by
  rw [SortedKeys, ← List.pairwise_map (f := fun e : String × CommandPos => e.1)]
  rw [compactLoop_keys]
  rw [SortedKeys, ← List.pairwise_map (f := fun e : String × CommandPos => e.1)] at hs
  exact hs

theorem inv_compact {s : Store} (hInv : Inv s) : Inv (compact s) := by
  obtain ⟨hdb, hfs, hlocs, hw, hbound⟩ := hInv
  refine ⟨hdb.compactLoop, ?_, ?_, ?_, ?_⟩
  · show SortedGens (removeGens (setFile s.files (s.curGen + 1) _) _)
    exact List.Pairwise.sublist (removeGens_sublist _ _) (hfs.setFile _ _)
  · intro e' he'
    have hl' : dbLookup (compact s).database e'.1 = some e'.2 :=
      dbLookup_of_mem hdb.compactLoop he'
    have hkey : e'.1 ∈ (compact s).database.map fun e => e.1 :=
      List.mem_map.mpr ⟨e', he', rfl⟩
    rw [compact_database, compactLoop_keys] at hkey
    obtain ⟨cp, hcp⟩ := dbLookup_isSome_of_mem_map hkey
    obtain ⟨v, hv⟩ := locOkB_iff.mp (hlocs _ (dbLookup_some_mem hcp))
    obtain ⟨cp', h₁, _, _, h₅⟩ := compact_resolves hcp hv
    have : e'.2 = cp' := by
      rw [hl'] at h₁
      injection h₁
    rw [locOkB_iff, this]
    exact ⟨v, h₅⟩
  · rw [writerOkB_iff]
    refine ⟨(compactLoop s.files (s.curGen + 1) s.database 0).2.1, ?_, ?_⟩
    · show filesLookup (compact s).files (compact s).curGen = _
      rw [compact_curGen]
      exact compact_filesLookup_cgen s
    · show (compactLoop s.files (s.curGen + 1) s.database 0).2.2 = _
      rw [compactLoop_finalPos]
      omega
  · intro e he
    have he' : e ∈ setFile s.files (s.curGen + 1)
        (compactLoop s.files (s.curGen + 1) s.database 0).2.1 :=
      (removeGens_sublist _ _).mem he
    rw [compact_curGen]
    rcases mem_setFile he' with h | h
    · subst h; exact le_refl _
    · exact le_trans (hbound e h) (Nat.le_succ _)

/-! ### Write-path lemmas -/

theorem locOkB_setFile_append {fs : Files} {g : Nat} {seg : Segment}
    (hseg : filesLookup fs g = some seg) (op : Ops) {e : String × CommandPos}
    (h : locOkB fs e = true) :
    locOkB (setFile fs g (seg ++ [op])) e = true := by
  rw [locOkB_iff] at h ⊢
  obtain ⟨v, hv⟩ := h
  unfold readDisk at hv ⊢
  by_cases hg : e.2.gen = g
  · rw [hg] at hv ⊢
    rw [hseg] at hv
    simp only [Option.some_bind] at hv
    rw [filesLookup_setFile_self]
    simp only [Option.some_bind]
    exact ⟨v, readAt_append_of_some hv [op]⟩
  · rw [filesLookup_setFile_ne hg]
    exact ⟨v, hv⟩

theorem set_fst (s : Store) (k v : String) :
    (set s k v).1 =
      if s.uncompacted + oldLenOf (dbInsert s.database k
            ⟨s.curGen, s.writerPos, s.writerPos + encSize (Ops.Set k v) - s.writerPos⟩).2 >
          COMPACTION_THRESHOLD
      then compact
        { files := setFile s.files s.curGen
            ((filesLookup s.files s.curGen).getD [] ++ [Ops.Set k v])
          database := (dbInsert s.database k
            ⟨s.curGen, s.writerPos, s.writerPos + encSize (Ops.Set k v) - s.writerPos⟩).1
          curGen := s.curGen
          writerPos := s.writerPos + encSize (Ops.Set k v)
          staleGen := s.staleGen
          uncompacted := s.uncompacted + oldLenOf (dbInsert s.database k
            ⟨s.curGen, s.writerPos, s.writerPos + encSize (Ops.Set k v) - s.writerPos⟩).2 }
      else
        { files := setFile s.files s.curGen
            ((filesLookup s.files s.curGen).getD [] ++ [Ops.Set k v])
          database := (dbInsert s.database k
            ⟨s.curGen, s.writerPos, s.writerPos + encSize (Ops.Set k v) - s.writerPos⟩).1
          curGen := s.curGen
          writerPos := s.writerPos + encSize (Ops.Set k v)
          staleGen := s.staleGen
          uncompacted := s.uncompacted + oldLenOf (dbInsert s.database k
            ⟨s.curGen, s.writerPos, s.writerPos + encSize (Ops.Set k v) - s.writerPos⟩).2 } :=
  rfl

theorem set_snd (s : Store) (k v : String) : (set s k v).2 = Except.ok () := rfl

theorem inv_setPre {s : Store} (hInv : Inv s) (k v : String) (st u : Nat) :
    Inv { files := setFile s.files s.curGen
            ((filesLookup s.files s.curGen).getD [] ++ [Ops.Set k v])
          database := (dbInsert s.database k
            ⟨s.curGen, s.writerPos, s.writerPos + encSize (Ops.Set k v) - s.writerPos⟩).1
          curGen := s.curGen
          writerPos := s.writerPos + encSize (Ops.Set k v)
          staleGen := st
          uncompacted := u } := by
  obtain ⟨hdb, hfs, hlocs, hw, hbound⟩ := hInv
  obtain ⟨seg, hseg, hpos⟩ := writerOkB_iff.mp hw
  rw [hseg]
  simp only [Option.getD_some]
  refine ⟨hdb.dbInsert _ _, hfs.setFile _ _, ?_, ?_, ?_⟩
  · intro e he
    rcases mem_dbInsert he with he | he
    · subst he
      rw [locOkB_iff]
      refine ⟨v, ?_⟩
      unfold readDisk
      simp only
      rw [filesLookup_setFile_self]
      simp only [Option.some_bind]
      have hlen : s.writerPos + encSize (Ops.Set k v) - s.writerPos =
          encSize (Ops.Set k v) := by omega
      rw [hlen, hpos]
      exact readAt_at_byteLen (Ops.Set k v) []
    · exact locOkB_setFile_append hseg _ (hlocs e he)
  · rw [writerOkB_iff]
    refine ⟨seg ++ [Ops.Set k v], ?_, ?_⟩
    · simp only
      rw [filesLookup_setFile_self]
    · simp only
      rw [byteLen_append, hpos, byteLen_cons, byteLen_nil]
      omega
  · intro e he
    rcases mem_setFile he with h | h
    · subst h; exact le_refl _
    · exact hbound e h

theorem inv_set {s : Store} (hInv : Inv s) (k v : String) : Inv (set s k v).1 := by
  rw [set_fst]
  split
  · exact inv_compact (inv_setPre hInv k v s.staleGen _)
  · exact inv_setPre hInv k v s.staleGen _

theorem get_set_self {s : Store} (hInv : Inv s) (k v : String) :
    get (set s k v).1 k = Except.ok (some v) := by
  have hpre := inv_setPre hInv k v s.staleGen
    (s.uncompacted + oldLenOf (dbInsert s.database k
      ⟨s.curGen, s.writerPos, s.writerPos + encSize (Ops.Set k v) - s.writerPos⟩).2)
  obtain ⟨hdb, hfs, hlocs, hw, hbound⟩ := hInv
  obtain ⟨seg, hseg, hpos⟩ := writerOkB_iff.mp hw
  have hlook : dbLookup (dbInsert s.database k
      ⟨s.curGen, s.writerPos, s.writerPos + encSize (Ops.Set k v) - s.writerPos⟩).1 k =
      some ⟨s.curGen, s.writerPos, s.writerPos + encSize (Ops.Set k v) - s.writerPos⟩ :=
    dbInsert_lookup_self
  have hread : readDisk (setFile s.files s.curGen
        ((filesLookup s.files s.curGen).getD [] ++ [Ops.Set k v]))
      ⟨s.curGen, s.writerPos, s.writerPos + encSize (Ops.Set k v) - s.writerPos⟩ =
      some (Ops.Set k v) := by
    unfold readDisk
    simp only
    rw [hseg, Option.getD_some, filesLookup_setFile_self]
    simp only [Option.some_bind]
    have hlen : s.writerPos + encSize (Ops.Set k v) - s.writerPos =
        encSize (Ops.Set k v) := by omega
    rw [hlen, hpos]
    exact readAt_at_byteLen (Ops.Set k v) []
  rw [set_fst]
  split
  · rw [compact_get ?_ k]
    · exact get_of_set_record hlook hread
    · exact hpre
  · exact get_of_set_record hlook hread

theorem remove_eq_none {s : Store} {k : String}
    (h : dbLookup s.database k = none) :
    remove s k = ({ s with database := (dbRemove s.database k).1 },
      Except.error KVErrorKind.KeyNotFound) := by
  have hsc : (dbRemove s.database k).2 = none := dbRemove_snd.trans h
  simp [remove, hsc]

theorem remove_noop {s : Store} {k : String}
    (h : dbLookup s.database k = none) :
    remove s k = (s, Except.error KVErrorKind.KeyNotFound) := by
  rw [remove_eq_none h, dbRemove_of_none h]

theorem remove_eq_some {s : Store} {k : String} {old : CommandPos}
    (h : dbLookup s.database k = some old) :
    remove s k =
      (if s.uncompacted + old.len > COMPACTION_THRESHOLD
       then compact
        { files := setFile s.files s.curGen
            ((filesLookup s.files s.curGen).getD [] ++ [Ops.Rm k])
          database := (dbRemove s.database k).1
          curGen := s.curGen
          writerPos := s.writerPos + encSize (Ops.Rm k)
          staleGen := s.staleGen
          uncompacted := s.uncompacted + old.len }
       else
        { files := setFile s.files s.curGen
            ((filesLookup s.files s.curGen).getD [] ++ [Ops.Rm k])
          database := (dbRemove s.database k).1
          curGen := s.curGen
          writerPos := s.writerPos + encSize (Ops.Rm k)
          staleGen := s.staleGen
          uncompacted := s.uncompacted + old.len },
       Except.ok ()) := by
  have hsc : (dbRemove s.database k).2 = some old := dbRemove_snd.trans h
  simp [remove, hsc, writeOps]

theorem inv_removePre {s : Store} (hInv : Inv s) (k : String) (st u : Nat) :
    Inv { files := setFile s.files s.curGen
            ((filesLookup s.files s.curGen).getD [] ++ [Ops.Rm k])
          database := (dbRemove s.database k).1
          curGen := s.curGen
          writerPos := s.writerPos + encSize (Ops.Rm k)
          staleGen := st
          uncompacted := u } := by
  obtain ⟨hdb, hfs, hlocs, hw, hbound⟩ := hInv
  obtain ⟨seg, hseg, hpos⟩ := writerOkB_iff.mp hw
  rw [hseg]
  simp only [Option.getD_some]
  refine ⟨hdb.dbRemove _, hfs.setFile _ _, ?_, ?_, ?_⟩
  · intro e he
    exact locOkB_setFile_append hseg _ (hlocs e (mem_dbRemove he))
  · rw [writerOkB_iff]
    refine ⟨seg ++ [Ops.Rm k], ?_, ?_⟩
    · simp only
      rw [filesLookup_setFile_self]
    · simp only
      rw [byteLen_append, hpos, byteLen_cons, byteLen_nil]
      omega
  · intro e he
    rcases mem_setFile he with h | h
    · subst h; exact le_refl _
    · exact hbound e h

theorem inv_remove {s : Store} (hInv : Inv s) (k : String) :
    Inv (remove s k).1 := by
  cases h : dbLookup s.database k with
  | none => rw [remove_noop h]; exact hInv
  | some old =>
    rw [remove_eq_some h]
    simp only
    split
    · exact inv_compact (inv_removePre hInv k s.staleGen _)
    · exact inv_removePre hInv k s.staleGen _

theorem get_remove_self {s : Store} (hInv : Inv s) {k : String}
    {old : CommandPos} (h : dbLookup s.database k = some old) :
    get (remove s k).1 k = Except.ok none := by
  have hnone : dbLookup (dbRemove s.database k).1 k = none :=
    dbRemove_lookup_self hInv.1 k
  rw [remove_eq_some h]
  simp only
  split
  · apply get_of_lookup_none
    rw [compact_database]
    exact compactLoop_lookup_none hnone
  · exact get_of_lookup_none hnone

theorem remove_err_iff (s : Store) (k : String) :
    (remove s k).2 = Except.error KVErrorKind.KeyNotFound ↔
      dbLookup s.database k = none := by
  cases h : dbLookup s.database k with
  | none => simp [remove_noop h]
  | some old => simp [remove_eq_some h]

theorem readAt_some_len {seg : Segment} {pos len : Nat} {r : Ops}
    (h : readAt seg pos len = some r) : len = encSize r := by
  induction seg generalizing pos with
  | nil => simp [readAt] at h
  | cons r₀ rest ih =>
    by_cases h₁ : pos = 0
    · subst h₁
      by_cases h₂ : len = encSize r₀ <;> simp [readAt, h₂] at h
      · rw [h₂, h]
    · by_cases h₂ : encSize r₀ ≤ pos
      · simp only [readAt, if_neg h₁, if_pos h₂] at h
        exact ih h
      · simp [readAt, h₁, h₂] at h

theorem compactLoop_gens {fs : Files} {cgen : Nat} (db : DB) :
    ∀ (pos : Nat), ∀ e ∈ (compactLoop fs cgen db pos).1, e.2.gen = cgen := by
  induction db with
  | nil =>
    intro pos e he
    simp [compactLoop] at he
  | cons e₀ rest ih =>
    obtain ⟨k, cp⟩ := e₀
    intro pos e he
    cases hr : readDisk fs cp with
    | some r =>
      simp only [compactLoop, hr] at he
      rcases List.mem_cons.mp he with h | h
      · subst h; rfl
      · exact ih _ e h
    | none =>
      simp only [compactLoop, hr] at he
      rcases List.mem_cons.mp he with h | h
      · subst h; rfl
      · exact ih _ e h

theorem dbLookup_set_isSome (s : Store) (k v : String) :
    ∃ cp, dbLookup (set s k v).1.database k = some cp := by
  rw [set_fst]
  split
  · rw [compact_database]
    apply dbLookup_isSome_of_mem_map
    rw [compactLoop_keys]
    exact List.mem_map.mpr ⟨_, dbLookup_some_mem dbInsert_lookup_self, rfl⟩
  · exact ⟨_, dbInsert_lookup_self⟩

end KV

namespace Protocol

/-! ### Wire-protocol lemmas -/

theorem u64be_length (n : Nat) : (u64be n).length = 8 := rfl

theorem beDecode_u64be {n : Nat} (h : n < 2 ^ 64) : beDecode (u64be n) = n := by
  simp only [u64be, beDecode, List.foldl_cons, List.foldl_nil]
  omega

theorem readFrame_writeFrame {α : Type} (enc : α → List Nat)
    (dec : List Nat → Option α) (x : α) (rest : List Nat)
    (hdec : dec (enc x) = some x) (hlen : (enc x).length < 2 ^ 64) :
    readFrame dec (writeFrame enc x ++ rest) = some x := by
  unfold readFrame writeFrame
  have hstream : (u64be (enc x).length ++ enc x) ++ rest =
      u64be (enc x).length ++ (enc x ++ rest) := by
    rw [List.append_assoc]
  rw [hstream]
  have htake : (u64be (enc x).length ++ (enc x ++ rest)).take 8 =
      u64be (enc x).length := by
    rw [← u64be_length (enc x).length]
    exact List.take_left _ _
  have hlenge : 8 ≤ (u64be (enc x).length ++ (enc x ++ rest)).length := by
    rw [List.length_append, u64be_length]
    omega
  have hrep : 8 - (u64be (enc x).length ++ (enc x ++ rest)).length = 0 := by
    omega
  have hdrop : (u64be (enc x).length ++ (enc x ++ rest)).drop 8 = enc x ++ rest := by
    rw [← u64be_length (enc x).length]
    exact List.drop_left _ _
  simp only [htake, hrep, List.replicate_zero, List.append_nil, hdrop,
    beDecode_u64be hlen, List.take_left]
  exact hdec

theorem u32be_length (n : Nat) : (u32be n).length = 4 := rfl

theorem beDecode_u32be {n : Nat} (h : n < 2 ^ 32) : beDecode (u32be n) = n := by
  simp only [u32be, beDecode, List.foldl_cons, List.foldl_nil]
  omega

theorem lengthDelimitedRead_write {α : Type} (enc : α → List Nat)
    (dec : List Nat → Option α) (x : α) (rest : List Nat)
    (hdec : dec (enc x) = some x) (hlen : (enc x).length < 2 ^ 32) :
    lengthDelimitedRead dec (lengthDelimitedWrite enc x ++ rest) = some x := by
  unfold lengthDelimitedRead lengthDelimitedWrite
  rw [List.append_assoc]
  have htake : (u32be (enc x).length ++ (enc x ++ rest)).take 4 =
      u32be (enc x).length := by
    rw [← u32be_length (enc x).length]
    exact List.take_left _ _
  have hdrop : (u32be (enc x).length ++ (enc x ++ rest)).drop 4 =
      enc x ++ rest := by
    rw [← u32be_length (enc x).length]
    exact List.drop_left _ _
  simp only [htake, hdrop, beDecode_u32be hlen, List.take_left]
  exact hdec

end Protocol

namespace Pool

/-! ### Thread-pool lemmas -/

theorem workerRun_map_newTask (ts : List Task) :
    workerRun (ts.map Message.NewTask) = ts.map callFromBox := by
  induction ts with
  | nil => rfl
  | cons t rest ih => simp [workerRun, ih]

end Pool

namespace KV

/-! ### Evaluation of the resurrection scenario -/

theorem encSize_Set (k v : String) :
    encSize (Ops.Set k v) = 23 + jsonStrSize k + jsonStrSize v := rfl

theorem jsonStrSize_replicate (n : Nat) (c : Char) :
    jsonStrSize (String.mk (List.replicate n c)) = 2 + n * escSize c := by
  unfold jsonStrSize
  rw [show (String.mk (List.replicate n c)).data = List.replicate n c from rfl]
  rw [List.map_replicate, List.sum_replicate, smul_eq_mul]

theorem jsonStrSize_bigVal : jsonStrSize bigVal = 2097102 := by
  unfold bigVal
  rw [jsonStrSize_replicate]
  have h2 : escSize 'a' = 1 := by decide
  rw [h2]

theorem encSize_set_b_bigVal : encSize (Ops.Set "b" bigVal) = 2097128 := by
  rw [encSize_Set, jsonStrSize_bigVal, show jsonStrSize "b" = 3 from by decide]

theorem rs3_eq : rs3 =
    { files := [(1, [Ops.Set "a" "1"]), (2, [Ops.Rm "a"])]
      database := []
      curGen := 2
      writerPos := 18
      staleGen := 0
      uncompacted := 29 } := by decide

theorem set_big_step4 (v : String) (hv : encSize (Ops.Set "b" v) = 2097128) :
    (set { files := [(1, [Ops.Set "a" "1"]), (2, [Ops.Rm "a"])]
           database := []
           curGen := 2
           writerPos := 18
           staleGen := 0
           uncompacted := 29 } "b" v).1 =
    { files := [(1, [Ops.Set "a" "1"]), (2, [Ops.Rm "a", Ops.Set "b" v])]
      database := [("b", ⟨2, 18, 2097128⟩)]
      curGen := 2
      writerPos := 2097146
      staleGen := 0
      uncompacted := 29 } := by
  rw [set_fst]
  simp [hv, dbInsert, oldLenOf, COMPACTION_THRESHOLD, filesLookup, setFile]

theorem set_big_step5 (v : String) (hv : encSize (Ops.Set "b" v) = 2097128) :
    (set { files := [(1, [Ops.Set "a" "1"]), (2, [Ops.Rm "a", Ops.Set "b" v])]
           database := [("b", ⟨2, 18, 2097128⟩)]
           curGen := 2
           writerPos := 2097146
           staleGen := 0
           uncompacted := 29 } "b" v).1 =
    { files := [(1, [Ops.Set "a" "1"]), (3, [Ops.Set "b" v])]
      database := [("b", ⟨3, 0, 2097128⟩)]
      curGen := 3
      writerPos := 2097128
      staleGen := 2
      uncompacted := 0 } := by
  have h18 : encSize (Ops.Rm "a") = 18 := by decide
  rw [set_fst]
  simp [hv, h18, dbInsert, oldLenOf, COMPACTION_THRESHOLD, filesLookup, setFile,
    compact, compactLoop, readDisk, readAt, removeGens, removeFile]

theorem get_a_after_compact (v : String) :
    get { files := [(1, [Ops.Set "a" "1"]), (3, [Ops.Set "b" v])]
          database := [("b", ⟨3, 0, 2097128⟩)]
          curGen := 3
          writerPos := 2097128
          staleGen := 2
          uncompacted := 0 } "a" = Except.ok none := by
  simp [get, dbLookup]

theorem get_a_after_reopen (v : String) (hv : encSize (Ops.Set "b" v) = 2097128) :
    get (openStore [(1, [Ops.Set "a" "1"]), (3, [Ops.Set "b" v])]) "a" =
      Except.ok (some "1") := by
  have h29 : encSize (Ops.Set "a" "1") = 29 := by decide
  simp [openStore, loadSeg, hv, h29, dbInsert, dbRemove, oldLenOf, dbLookup,
    filesLookup, setFile, get, readAt]

theorem rs4_eq : rs4 =
    { files := [(1, [Ops.Set "a" "1"]), (2, [Ops.Rm "a", Ops.Set "b" bigVal])]
      database := [("b", ⟨2, 18, 2097128⟩)]
      curGen := 2
      writerPos := 2097146
      staleGen := 0
      uncompacted := 29 } := by
  show (set rs3 "b" bigVal).1 = _
  rw [rs3_eq]
  exact set_big_step4 bigVal encSize_set_b_bigVal

theorem rs5_eq : rs5 =
    { files := [(1, [Ops.Set "a" "1"]), (3, [Ops.Set "b" bigVal])]
      database := [("b", ⟨3, 0, 2097128⟩)]
      curGen := 3
      writerPos := 2097128
      staleGen := 2
      uncompacted := 0 } := by
  show (set rs4 "b" bigVal).1 = _
  rw [rs4_eq]
  exact set_big_step5 bigVal encSize_set_b_bigVal

end KV

namespace KV

/-!
Claim theorems: one per claim of the specification review.
-/

/-- C1: on any store satisfying the state invariant, a `set(k, v)` succeeds
and a subsequent `get(k)` returns `Some v`; after `set(k, v₁); set(k, v₂)`
the `get(k)` returns `Some v₂`, the most recently written value. -/
theorem claim_C1 (s : Store) (k v v₁ v₂ : String) (h : Inv s) :
    (set s k v).2 = Except.ok () ∧
    get (set s k v).1 k = Except.ok (some v) ∧
    get (set (set s k v₁).1 k v₂).1 k = Except.ok (some v₂) :=
  ⟨set_snd s k v, get_set_self h k v, get_set_self (inv_set h k v₁) k v₂⟩

theorem claim_C1_witness :
    get (set (openStore []) "key1" "value1").1 "key1" =
      Except.ok (some "value1") ∧
    get (set (set (openStore []) "k" "v1").1 "k" "v2").1 "k" =
      Except.ok (some "v2") :=
  ⟨(claim_C1 (openStore []) "key1" "value1" "x" "y" (by decide)).2.1,
   (claim_C1 (openStore []) "k" "z" "v1" "v2" (by decide)).2.2⟩

/-- C2 fails on the code: after the operation sequence
`set "a" "1"`, drop and reopen, `remove "a"`, `set "b" bigVal`,
`set "b" bigVal` (the displaced big record pushes `uncompacted` over the
2 MiB threshold, so the last `set` compacts), the store answers
`get "a" = None`, but compaction deleted only generation 2 (the one
holding live locators, including the `Rm "a"` tombstone) and left the
stale generation 1 behind, so reopening the same directory replays
`Set "a" "1"` and `get "a"` resurrects `Some "1"`. -/
theorem claim_C2 :
    get rs5 "a" = Except.ok none ∧
    get (openStore rs5.files) "a" = Except.ok (some "1") ∧
    filesLookup rs5.files 1 = some [Ops.Set "a" "1"] := by
  refine ⟨?_, ?_, ?_⟩
  · rw [rs5_eq]
    exact get_a_after_compact bigVal
  · rw [rs5_eq]
    exact get_a_after_reopen bigVal encSize_set_b_bigVal
  · rw [rs5_eq]
    rfl

/-- C3: on any store satisfying the state invariant, `compact` preserves
the observable mapping (`get` is unchanged for every key), afterwards
every index locator points into the compaction generation, each live
record keeps its byte length at its new locator, the compaction
generation is one above the previous current generation, the current
writer is the compaction writer positioned at the end of the compaction
segment, and the uncompacted counter is zero. -/
theorem claim_C3 (s : Store) (h : Inv s) :
    (∀ k, get (compact s) k = get s k) ∧
    (∀ e ∈ (compact s).database, e.2.gen = (compact s).curGen) ∧
    (∀ e ∈ s.database, ∃ cp', dbLookup (compact s).database e.1 = some cp' ∧
      cp'.len = e.2.len) ∧
    (compact s).curGen = s.curGen + 1 ∧
    writerOkB (compact s) = true ∧
    (compact s).uncompacted = 0 := by
  refine ⟨compact_get h, ?_, ?_, rfl, (inv_compact h).2.2.2.1, rfl⟩
  · intro e he
    rw [compact_curGen]
    rw [compact_database] at he
    exact compactLoop_gens s.database 0 e he
  · intro e he
    have hl := dbLookup_of_mem h.1 he
    obtain ⟨v, hv⟩ := locOkB_iff.mp (h.2.2.1 e he)
    obtain ⟨cp', h₁, _, h₃, _⟩ := compact_resolves hl hv
    refine ⟨cp', h₁, ?_⟩
    rw [h₃]
    unfold readDisk at hv
    cases hf : filesLookup s.files e.2.gen with
    | none => rw [hf] at hv; simp at hv
    | some seg =>
      rw [hf] at hv
      simp only [Option.some_bind] at hv
      exact (readAt_some_len hv).symm

theorem claim_C3_witness :
    Inv (set (openStore []) "a" "1").1 ∧
    get (compact (set (openStore []) "a" "1").1) "a" =
      get (set (openStore []) "a" "1").1 "a" ∧
    (compact (set (openStore []) "a" "1").1).uncompacted = 0 :=
  ⟨by decide, (claim_C3 (set (openStore []) "a" "1").1 (by decide)).1 "a",
   (claim_C3 (set (openStore []) "a" "1").1 (by decide)).2.2.2.2.2⟩

/-- C4 fails on the code: compacting `preCompactState` (a valid store
whose generation 1 holds only a superseded record) publishes the
stale-generation watermark as compaction generation minus one and
deletes generation 2, but generation 1 — strictly below the compaction
generation 3 — is not deleted, because the deletion loop only visits
generations found in the copy loop's reader cache, that is, generations
some live locator pointed at. -/
theorem claim_C4 :
    Inv preCompactState ∧
    (compact preCompactState).curGen = 3 ∧
    (compact preCompactState).staleGen = 3 - 1 ∧
    filesLookup (compact preCompactState).files 2 = none ∧
    filesLookup (compact preCompactState).files 1 = some [Ops.Set "a" "1"] := by
  decide

/-- C5 counterexample: replaying the segment `[Set "a" "1", Rm "a"]`
(record sizes 29 and 18, so the `Rm` occupies `[29, 47)` with
`end - begin = 18`) leaves `uncompacted = 29` — only the displaced
locator's length — not `29 + 18` as the claim's tombstone-size
accounting would require. -/
theorem claim_C5_counterexample :
    loadSeg 1 [Ops.Set "a" "1", Ops.Rm "a"] ([], 0) 0 = ([], 29) ∧
    encSize (Ops.Set "a" "1") = 29 ∧
    encSize (Ops.Rm "a") = 18 ∧
    loadSeg 1 [Ops.Set "a" "1", Ops.Rm "a"] ([], 0) 0 ≠ ([], 29 + 18) := by
  decide

/-- C5 amended: during recovery, replaying a `Remove` record for a key
present in the index increases the uncompacted counter by exactly the
displaced locator's length; the tombstone's own `end - begin` bytes are
not added. -/
theorem claim_C5 (gen pos unc : Nat) (rest : Segment) (db : DB) (k : String)
    (old : CommandPos) (h : dbLookup db k = some old) :
    loadSeg gen (Ops.Rm k :: rest) (db, unc) pos =
      loadSeg gen rest ((dbRemove db k).1, unc + old.len)
        (pos + encSize (Ops.Rm k)) := by
  have hsc : (dbRemove db k).2 = some old := dbRemove_snd.trans h
  simp [loadSeg, hsc, oldLenOf]

theorem claim_C5_witness :
    loadSeg 1 [Ops.Rm "a"] ([("a", ⟨1, 0, 29⟩)], 7) 100 = ([], 7 + 29) :=
  claim_C5 1 100 7 [] [("a", ⟨1, 0, 29⟩)] "a" ⟨1, 0, 29⟩ (by decide)

/-- C6: `remove(k)` fails with `KeyNotFound` exactly when `k` is absent
from the in-memory index; when present it succeeds and a subsequent
`get(k)` returns `None` (also after `set(k, v); remove(k)`), while `get`
on an absent key returns `None` rather than an error. -/
theorem claim_C6 (s : Store) (k kset v : String) (h : Inv s) :
    ((remove s k).2 = Except.error KVErrorKind.KeyNotFound ↔
      dbLookup s.database k = none) ∧
    (∀ old, dbLookup s.database k = some old →
      (remove s k).2 = Except.ok () ∧ get (remove s k).1 k = Except.ok none) ∧
    (dbLookup s.database k = none → get s k = Except.ok none) ∧
    get (remove (set s kset v).1 kset).1 kset = Except.ok none := by
  refine ⟨remove_err_iff s k, ?_, ?_, ?_⟩
  · intro old hold
    refine ⟨?_, get_remove_self h hold⟩
    rw [remove_eq_some hold]
  · intro hnone
    exact get_of_lookup_none hnone
  · obtain ⟨cp, hcp⟩ := dbLookup_set_isSome s kset v
    exact get_remove_self (inv_set h kset v) hcp

theorem claim_C6_witness :
    (remove (openStore []) "gone").2 = Except.error KVErrorKind.KeyNotFound ∧
    get (remove (set (openStore []) "a" "1").1 "a").1 "a" = Except.ok none :=
  ⟨(claim_C6 (openStore []) "gone" "a" "1" (by decide)).1.mpr (by decide),
   (claim_C6 (openStore []) "gone" "a" "1" (by decide)).2.2.2⟩

/-- C7 counterexample: the project-5 wire path (`KvClient::send` in
`network/client.rs`) frames through the external `tokio-util`
`LengthDelimitedCodec` default configuration, whose length field is
4 bytes: sending a `Command` whose serialized body is the single byte
`123` produces the 5-byte frame `[0, 0, 0, 1, 123]`, not the 9-byte
frame `[0, 0, 0, 0, 0, 0, 0, 1, 123]` that the claimed fixed-width
8-byte big-endian length prefix would produce — so not every wire
message is framed with an 8-byte prefix. -/
theorem claim_C7_counterexample :
    Protocol.lengthDelimitedWrite (fun _ => [123]) (Protocol.Command.Get "k") =
      [0, 0, 0, 1, 123] ∧
    Protocol.u64be ([123] : List Nat).length ++ [123] =
      [0, 0, 0, 0, 0, 0, 0, 1, 123] ∧
    Protocol.lengthDelimitedWrite (fun _ => [123]) (Protocol.Command.Get "k") ≠
      Protocol.u64be ([123] : List Nat).length ++ [123] := by
  decide

/-- C7 amended: wire messages (`Command` or `Response`) on the project-3
path (`protocol.rs`) are framed as a fixed 8-byte big-endian length
prefix followed by exactly the serialized JSON bytes, while the project-5
client path delegates framing to the `tokio-util` length-delimited codec
default, a fixed 4-byte big-endian length prefix followed by exactly the
serialized JSON bytes; on each path reading a frame inverts writing it,
for any serializer/deserializer pair (standing for `serde_json`) that
round-trips the message and any trailing stream content. -/
theorem claim_C7 (c : Protocol.Command) (r : Protocol.Response)
    (encC : Protocol.Command → List Nat) (decC : List Nat → Option Protocol.Command)
    (encR : Protocol.Response → List Nat) (decR : List Nat → Option Protocol.Response)
    (restC restR : List Nat)
    (hC : decC (encC c) = some c) (hlC : (encC c).length < 2 ^ 64)
    (hR : decR (encR r) = some r) (hlR : (encR r).length < 2 ^ 64)
    (h32C : (encC c).length < 2 ^ 32) (h32R : (encR r).length < 2 ^ 32) :
    Protocol.writeFrame encC c = Protocol.u64be (encC c).length ++ encC c ∧
    Protocol.readFrame decC (Protocol.writeFrame encC c ++ restC) = some c ∧
    Protocol.writeFrame encR r = Protocol.u64be (encR r).length ++ encR r ∧
    Protocol.readFrame decR (Protocol.writeFrame encR r ++ restR) = some r ∧
    Protocol.lengthDelimitedWrite encC c =
      Protocol.u32be (encC c).length ++ encC c ∧
    Protocol.lengthDelimitedRead decC
      (Protocol.lengthDelimitedWrite encC c ++ restC) = some c ∧
    Protocol.lengthDelimitedWrite encR r =
      Protocol.u32be (encR r).length ++ encR r ∧
    Protocol.lengthDelimitedRead decR
      (Protocol.lengthDelimitedWrite encR r ++ restR) = some r :=
  ⟨rfl, Protocol.readFrame_writeFrame encC decC c restC hC hlC,
   rfl, Protocol.readFrame_writeFrame encR decR r restR hR hlR,
   rfl, Protocol.lengthDelimitedRead_write encC decC c restC hC h32C,
   rfl, Protocol.lengthDelimitedRead_write encR decR r restR hR h32R⟩

theorem claim_C7_witness :
    Protocol.readFrame (fun _ => some (Protocol.Command.Get "k"))
      (Protocol.writeFrame (fun _ => [0]) (Protocol.Command.Get "k") ++ [9]) =
      some (Protocol.Command.Get "k") ∧
    Protocol.readFrame (fun _ => some (⟨true, "m"⟩ : Protocol.Response))
      (Protocol.writeFrame (fun _ => [1, 2]) (⟨true, "m"⟩ : Protocol.Response) ++ []) =
      some (⟨true, "m"⟩ : Protocol.Response) ∧
    Protocol.lengthDelimitedRead (fun _ => some (Protocol.Command.Get "k"))
      (Protocol.lengthDelimitedWrite (fun _ => [0]) (Protocol.Command.Get "k") ++ [9]) =
      some (Protocol.Command.Get "k") :=
  ⟨(claim_C7 (Protocol.Command.Get "k") ⟨true, "m"⟩ (fun _ => [0])
      (fun _ => some (Protocol.Command.Get "k")) (fun _ => [1, 2])
      (fun _ => some (⟨true, "m"⟩ : Protocol.Response)) [9] []
      rfl (by decide) rfl (by decide) (by decide) (by decide)).2.1,
   (claim_C7 (Protocol.Command.Get "k") ⟨true, "m"⟩ (fun _ => [0])
      (fun _ => some (Protocol.Command.Get "k")) (fun _ => [1, 2])
      (fun _ => some (⟨true, "m"⟩ : Protocol.Response)) [9] []
      rfl (by decide) rfl (by decide) (by decide) (by decide)).2.2.2.1,
   (claim_C7 (Protocol.Command.Get "k") ⟨true, "m"⟩ (fun _ => [0])
      (fun _ => some (Protocol.Command.Get "k")) (fun _ => [1, 2])
      (fun _ => some (⟨true, "m"⟩ : Protocol.Response)) [9] []
      rfl (by decide) rfl (by decide) (by decide) (by decide)).2.2.2.2.2.1⟩

/-- C8: `write_ops(op)` returns the locator
`(cur_gen, begin, end - begin)` where `begin` is the writer position
before the write and `end = begin + encSize op` after it (the positioned
writer advances by exactly the bytes written), so the locator's length
is the serialized record's byte length; under the state invariant the
offset is the record's start within the current generation's segment and
decoding at the locator yields the record back. -/
theorem claim_C8 (s : Store) (op : Ops) (h : Inv s) :
    (writeOps s op).2 = ⟨s.curGen, s.writerPos, encSize op⟩ ∧
    (writeOps s op).1.writerPos = s.writerPos + encSize op ∧
    ∃ seg, filesLookup s.files s.curGen = some seg ∧
      (writeOps s op).2.pos = byteLen seg ∧
      filesLookup (writeOps s op).1.files s.curGen = some (seg ++ [op]) ∧
      readAt (seg ++ [op]) (writeOps s op).2.pos (writeOps s op).2.len =
        some op := by
  obtain ⟨seg, hseg, hpos⟩ := writerOkB_iff.mp h.2.2.2.1
  refine ⟨?_, rfl, seg, hseg, hpos, ?_, ?_⟩
  · show (⟨s.curGen, s.writerPos, s.writerPos + encSize op - s.writerPos⟩ :
      CommandPos) = _
    have hlen : s.writerPos + encSize op - s.writerPos = encSize op := by omega
    rw [hlen]
  · show filesLookup (setFile s.files s.curGen
        ((filesLookup s.files s.curGen).getD [] ++ [op])) s.curGen = _
    rw [hseg, Option.getD_some, filesLookup_setFile_self]
  · show readAt (seg ++ [op]) s.writerPos
        (s.writerPos + encSize op - s.writerPos) = some op
    have hlen : s.writerPos + encSize op - s.writerPos = encSize op := by omega
    rw [hlen, hpos]
    exact readAt_at_byteLen op []

theorem claim_C8_witness :
    (writeOps (openStore []) (Ops.Set "k" "v")).2 = ⟨1, 0, 29⟩ := by
  have h := (claim_C8 (openStore []) (Ops.Set "k" "v") (by decide)).1
  rw [h]
  decide

/-- C9: in the shared-queue thread pool, a panicking task is caught
inside `call_from_box` and becomes the `ThreadPanic` error; the worker's
receive loop executes the task and keeps looping regardless of the
task's outcome (only a `Terminate` sentinel stops it), so every
submitted task in the queue is still executed and the pool's effective
capacity is not reduced by panics. -/
theorem claim_C9 (t : Pool.Task) (p : Unit) (ms : List Pool.Message)
    (ts : List Pool.Task) :
    Pool.callFromBox (Except.error p) =
      Except.error KV.KVErrorKind.ThreadPanic ∧
    Pool.workerRun (Pool.Message.NewTask t :: ms) =
      Pool.callFromBox t :: Pool.workerRun ms ∧
    Pool.workerRun (ts.map Pool.Message.NewTask) = ts.map Pool.callFromBox :=
  ⟨rfl, rfl, Pool.workerRun_map_newTask ts⟩

/-- C10: when `remove(k)` fails with `KeyNotFound`, the store is
returned completely unchanged — same directory contents, index, current
generation, writer position, watermark, and uncompacted counter — and no
compaction is triggered. -/
theorem claim_C10 (s : Store) (k : String)
    (h : (remove s k).2 = Except.error KVErrorKind.KeyNotFound) :
    remove s k = (s, Except.error KVErrorKind.KeyNotFound) :=
  remove_noop ((remove_err_iff s k).mp h)

theorem claim_C10_witness :
    remove (openStore []) "x" =
      (openStore [], Except.error KVErrorKind.KeyNotFound) :=
  claim_C10 (openStore []) "x"
    ((remove_err_iff (openStore []) "x").mpr (by decide))

end KV
